import Mathlib

/-!
Verification of the bash-and-dash log analyzer core
(`Bashanddash.py` / `Bashanddash-debug.py`).

The embedding covers the three core components:
* the Event Matcher (`BASH_PATTERNS` and the `re.search` loop),
* the Session Segmenter (`count_greedy_bashes_per_battle`),
* the Payout Calculator (the computational part of `show_summary_in_gui`).

Strings are modelled as `String` / `List Char`; Python dicts with insertion
order (`defaultdict(int)`) are modelled as association lists; Python's stable
`sorted` is modelled by a stable insertion sort.
-/

namespace BashAndDash

/-- Python whitespace predicate (ASCII range), as used by `str.strip` and the
regex class `\s`. -/
def isPySpace (c : Char) : Bool :=
  c = ' ' || c = '\t' || c = '\n' || c = '\r' || c = '\x0b' || c = '\x0c'

/-- Python `str.strip()`: drop whitespace from both ends. -/
def pyStripList (cs : List Char) : List Char :=
  ((cs.dropWhile isPySpace).reverse.dropWhile isPySpace).reverse

/-- Substring test: models `re.search` of a plain literal pattern
(`START_PATTERN = r'Game over'` contains no metacharacters). -/
def containsSub (needle : List Char) : List Char → Bool
  | [] => needle.isPrefixOf []
  | s@(_ :: t) => needle.isPrefixOf s || containsSub needle t

/-- Regular-expression AST covering exactly the constructs appearing in the
source's `BASH_PATTERNS`: literals, `.`, `\s`, concatenation, one capturing
group, and lazy/greedy `*`/`+`. -/
inductive RE where
  | lit : List Char → RE
  | dot : RE
  | wsp : RE
  | cat : RE → RE → RE
  | group : RE → RE
  | starLazy : RE → RE
  | plusLazy : RE → RE
  | starGreedy : RE → RE
  | plusGreedy : RE → RE

/-- Result of a match attempt: the contents of the (single) capturing group,
when one participated in the match. -/
abbrev Cap := Option (List Char)

/-- Backtracking matcher in continuation-passing style, following Python `re`
backtracking order: a lazy quantifier tries the continuation before another
iteration, a greedy quantifier tries another iteration before the
continuation; `.` matches any character except a newline. `fuel` bounds the
recursion depth and strictly decreases on every recursive call; the wrappers
below always supply more fuel than a match on the given input can consume. -/
def mtch : Nat → RE → List Char → (List Char → Option Cap) → Option Cap
  | 0, _, _, _ => none
  | _ + 1, .lit cs, s, k => if cs.isPrefixOf s then k (s.drop cs.length) else none
  | _ + 1, .dot, s, k =>
      match s with
      | [] => none
      | c :: r => if c = '\n' then none else k r
  | _ + 1, .wsp, s, k =>
      match s with
      | [] => none
      | c :: r => if isPySpace c then k r else none
  | f + 1, .cat a b, s, k => mtch f a s (fun r => mtch f b r k)
  | f + 1, .group a, s, k =>
      mtch f a s (fun r => (k r).map (fun _ => some (s.take (s.length - r.length))))
  | f + 1, .starLazy a, s, k =>
      (k s).orElse (fun _ => mtch f a s (fun r => mtch f (.starLazy a) r k))
  | f + 1, .plusLazy a, s, k => mtch f a s (fun r => mtch f (.starLazy a) r k)
  | f + 1, .starGreedy a, s, k =>
      (mtch f a s (fun r => mtch f (.starGreedy a) r k)).orElse (fun _ => k s)
  | f + 1, .plusGreedy a, s, k => mtch f a s (fun r => mtch f (.starGreedy a) r k)

/-- `re.search`: try a match at each start position, leftmost first (the match
attempt at the end-of-string position included). -/
def searchFrom (re : RE) (fuel : Nat) : List Char → Option Cap
  | [] => mtch fuel re [] (fun _ => some none)
  | s@(_ :: t) => (mtch fuel re s (fun _ => some none)).orElse (fun _ => searchFrom re fuel t)

/-- Fuel ample for any match attempt on `s` (depth is at most linear in the
length of `s` plus the size of the pattern, which is fixed here). -/
def reSearch (re : RE) (s : List Char) : Option Cap :=
  searchFrom re (8 * s.length + 64) s

/-- The common shape of the four source patterns:
`\[.*?\]\s*(?P<pirate>.+?)<mid>.+<tail>`. -/
def bashRE (mid tl : String) : RE :=
  .cat (.lit ['[']) (.cat (.starLazy .dot) (.cat (.lit [']'])
    (.cat (.starGreedy .wsp) (.cat (.group (.plusLazy .dot))
      (.cat (.lit mid.toList) (.cat (.plusGreedy .dot) (.lit tl.toList)))))))

/-- The four `BASH_PATTERNS` of the source, in order. -/
def BASH_PATTERNS : List RE :=
  [ bashRE " performs a powerful attack against " " and steals some loot in the process!",
    bashRE " delivers an overwhelming barrage against "
      " causing some treasure to fall from their grip!",
    bashRE " executes a masterful strike against " " who drops some treasure in surprise!",
    bashRE " swings a devious blow against " " jarring some treasure loose!" ]

/-- The `for pattern in BASH_PATTERNS: ... break` loop: first matching pattern
wins; a line contributes at most one event. -/
def matchFirst : List RE → List Char → Option (List Char)
  | [], _ => none
  | p :: ps, line =>
    match reSearch p line with
    | some cap => some (cap.getD [])
    | none => matchFirst ps line

/-- The Event Matcher on one line: `match.group('pirate').strip()` of the first
matching pattern, if any. -/
def matchBash (line : String) : Option String :=
  (matchFirst BASH_PATTERNS line.toList).map (fun cs => String.mk (pyStripList cs))

/-- `START_PATTERN = r'Game over'` (the source uses the identical literal as
`END_PATTERN`). -/
def START_PATTERN : List Char := "Game over".toList

/-- Battle-boundary test: `re.search(START_PATTERN, line)` on a literal. -/
def isMarker (line : String) : Bool := containsSub START_PATTERN line.toList

/-- A battle: per-pirate hit counts. Models `defaultdict(int)` /
`dict(current_battle)` as an insertion-ordered association list with distinct
keys. -/
abbrev Battle := List (String × Nat)

/-- `current_battle[pirate] += 1` on an insertion-ordered dict. -/
def bump : Battle → String → Battle
  | [], p => [(p, 1)]
  | (q, n) :: rest, p => if q = p then (q, n + 1) :: rest else (q, n) :: bump rest p

/-- The line loop of `count_greedy_bashes_per_battle`: state is
(`in_battle`, `current_battle`, `battles`); the `[]` case performs the
terminal flush of a still-open non-empty battle. -/
def segLoop : List String → Bool → Battle → List Battle → List Battle
  | [], inBattle, cur, acc => if inBattle ∧ cur ≠ [] then acc ++ [cur] else acc
  | line :: rest, inBattle, cur, acc =>
    if isMarker line then
      segLoop rest true [] (if inBattle ∧ cur ≠ [] then acc ++ [cur] else acc)
    else if inBattle then
      match matchBash line with
      | some p => segLoop rest inBattle (bump cur p) acc
      | none => segLoop rest inBattle cur acc
    else
      segLoop rest inBattle cur acc

/-- The segmenter on the decoded line sequence. -/
def countCore (lines : List String) : List Battle := segLoop lines false [] []

/-- `count_greedy_bashes_per_battle`: the file is either readable (its decoded
lines) or an access error; on error the function prints
`Error reading file: ...` and returns `[]` (the second component is the
emitted error report; no exception escapes). -/
def count_greedy_bashes_per_battle (input : Except String (List String)) :
    List Battle × Option String :=
  match input with
  | .error e => ([], some ("Error reading file: " ++ e))
  | .ok lines => (countCore lines, none)

/-- Digit-run parser used by `pyInt`: digits with single underscores allowed
between digits, as Python's `int` accepts. `acc` is the value of the digits
consumed so far. -/
def parseDigitsCore : List Char → Nat → Option Nat
  | [], acc => some acc
  | '_' :: c :: rest, acc =>
      if c.isDigit then parseDigitsCore rest (acc * 10 + (c.toNat - 48)) else none
  | ['_'], _ => none
  | c :: rest, acc =>
      if c.isDigit then parseDigitsCore rest (acc * 10 + (c.toNat - 48)) else none

/-- A non-empty digit run (underscore separators allowed after the first
digit). -/
def parseDigits (cs : List Char) : Option Nat :=
  match cs with
  | [] => none
  | c :: rest => if c.isDigit then parseDigitsCore rest (c.toNat - 48) else none

/-- Python `int(s)` on a string (ASCII scope): surrounding whitespace is
stripped, an optional sign precedes a non-empty digit run; anything else
raises `ValueError`, modelled as `none`. -/
def pyInt (s : String) : Option Int :=
  match pyStripList s.toList with
  | '+' :: rest => (parseDigits rest).map (fun n => (n : Int))
  | '-' :: rest => (parseDigits rest).map (fun n => -(n : Int))
  | rest => (parseDigits rest).map (fun n => (n : Int))

/-- `try: int(var.get()) except (ValueError, TypeError): 0`. -/
def toRate (s : String) : Int := (pyInt s).getD 0

/-- Insert into a descending-by-count list, before the first entry whose count
is not larger (`sortDesc` folds from the right, so the inserted element is the
earliest in the original order and must precede ties). -/
def insertDesc (x : String × Nat) : List (String × Nat) → List (String × Nat)
  | [] => [x]
  | y :: ys => if y.2 ≤ x.2 then x :: y :: ys else y :: insertDesc x ys

/-- Stable sort by descending count, modelling Python's stable
`sorted(d.items(), key=lambda kv: -kv[1])` (dict items iterate in insertion
order; Timsort is stable, and any stable sort yields the same output). -/
def sortDesc : List (String × Nat) → List (String × Nat)
  | [] => []
  | x :: xs => insertDesc x (sortDesc xs)

/-- `f"{pirate} ({count})"`. -/
def fmtCount (pc : String × Nat) : String := pc.1 ++ " (" ++ toString pc.2 ++ ")"

/-- Digit grouping (input reversed, least-significant first): a comma after
every three digits. -/
def commaGroup : List Char → List Char
  | a :: b :: c :: d :: rest => a :: b :: c :: ',' :: commaGroup (d :: rest)
  | ds => ds

/-- Python `f"{n:,}"` for integers: thousands separators. -/
def commaFmtInt (i : Int) : String :=
  let digits := (toString i.natAbs).toList
  (if i < 0 then "-" else "") ++ String.mk (commaGroup digits.reverse).reverse

/-- The outputs `show_summary_in_gui` computes (the pure content behind the
widget updates): the summary text, the two command lists, the running total
and the total label text. -/
structure GuiUpdate where
  summary : String
  top_pay_line : List String
  payout_lines : List String
  total_battle_payout : Int
  total_payout_text : String
deriving Repr, DecidableEq

/-- A payout command string: `f"/pay {pirate} {amount}"`. -/
def payCmd (p : String) (amt : Int) : String := "/pay " ++ p ++ " " ++ toString amt

/-- `max_bashes = sorted_bashers[0][1] if sorted_bashers else 0`. -/
def max_bashes (sorted_bashers : List (String × Nat)) : Nat :=
  match sorted_bashers with
  | [] => 0
  | x :: _ => x.2

/-- `top_bashers = [pirate for pirate, count in sorted_bashers if count == max_bashes]`. -/
def top_bashers_of (sorted_bashers : List (String × Nat)) : List String :=
  (sorted_bashers.filter (fun pc => pc.2 == max_bashes sorted_bashers)).map (·.1)

/-- The top-basher command block: `if last_battle and top_payout > 0`, one
command per top basher (ties all paid in full). -/
def top_pay_of (last_battle : Battle) (top_payout : Int) : List String :=
  if last_battle ≠ [] ∧ 0 < top_payout then
    (top_bashers_of (sortDesc last_battle)).map (fun p => payCmd p top_payout)
  else []

/-- The per-bash loop's (pirate, amount) pairs, in sorted order:
`total_pay = payout * count` for each pirate, `if payout > 0 and last_battle`. -/
def payout_pairs_of (last_battle : Battle) (payout : Int) : List (String × Int) :=
  if 0 < payout ∧ last_battle ≠ [] then
    (sortDesc last_battle).map (fun pc => (pc.1, payout * (pc.2 : Int)))
  else []

/-- The computational content of `show_summary_in_gui` (identical in
`Bashanddash.py` and `Bashanddash-debug.py`): process the last battle, build
the top-basher commands, the per-bash commands and the running total
(`total_battle_payout` accumulates only the per-bash amounts). -/
def show_summary_in_gui (battles : List Battle) (payout_var top_var : String) :
    GuiUpdate :=
  if battles = [] then
    { summary := "No greedy bashes found.", top_pay_line := [], payout_lines := [],
      total_battle_payout := 0, total_payout_text := "Total Battle Payout: 0 PoE" }
  else
    let last_battle := (battles.getLast?).getD []
    let total_bashes := (last_battle.map (·.2)).sum
    let sorted_bashers := sortDesc last_battle
    let pirate_parts := sorted_bashers.map fmtCount
    let summary := "Total greedy bashes: " ++ toString total_bashes ++
      (if pirate_parts = [] then "" else ", " ++ String.intercalate ", " pirate_parts)
    let top_pay_line := top_pay_of last_battle (toRate top_var)
    let payout_pairs := payout_pairs_of last_battle (toRate payout_var)
    let payout_lines := payout_pairs.map (fun pa => payCmd pa.1 pa.2)
    let total_battle_payout := (payout_pairs.map (·.2)).sum
    { summary, top_pay_line, payout_lines, total_battle_payout,
      total_payout_text :=
        "Total Battle Payout: " ++ commaFmtInt total_battle_payout ++ " PoE" }

/-- One step of the segmenter's state machine, state = (`in_battle`,
`current_battle`), without the output list. -/
def stepState (st : Bool × Battle) (line : String) : Bool × Battle :=
  if isMarker line then (true, [])
  else if st.1 then
    match matchBash line with
    | some p => (true, bump st.2 p)
    | none => st
  else st

/-- The segmenter state after consuming all lines, from the initial state. -/
def finalState (lines : List String) : Bool × Battle := lines.foldl stepState (false, [])

/-- The segmenter loop without the terminal flush: only battles closed by a
subsequent boundary marker are recorded. -/
def segLoopNF : List String → Bool → Battle → List Battle → List Battle
  | [], _, _, acc => acc
  | line :: rest, inBattle, cur, acc =>
    if isMarker line then
      segLoopNF rest true [] (if inBattle ∧ cur ≠ [] then acc ++ [cur] else acc)
    else if inBattle then
      match matchBash line with
      | some p => segLoopNF rest inBattle (bump cur p) acc
      | none => segLoopNF rest inBattle cur acc
    else
      segLoopNF rest inBattle cur acc

/-- The battles flushed by boundary markers (no terminal flush). -/
def markerFlushed (lines : List String) : List Battle := segLoopNF lines false [] []

/-- The end-to-end example input of the specification (section 8, item 6). -/
def exampleLines : List String :=
  [ "Game over",
    "[12:00] Redbeard performs a powerful attack against Bluebeard and steals some loot in the process!",
    "[12:01] Redbeard performs a powerful attack against Bluebeard and steals some loot in the process!",
    "[12:02] Shorty swings a devious blow against Longjohn jarring some treasure loose!",
    "Game over" ]

/-! ### General helper lemmas -/

theorem String.dataAppend (s t : String) : (s ++ t).data = s.data ++ t.data := rfl

theorem String.eqOfData {s t : String} (h : s.data = t.data) : s = t := by
  cases s
  cases t
  exact congrArg String.mk h

theorem payCmd_inj_left {t : Int} {p q : String} (h : payCmd p t = payCmd q t) : p = q := by
  have hd := congrArg String.data h
  simp only [payCmd, String.dataAppend, List.append_assoc] at hd
  have hpq := List.append_cancel_left hd
  exact String.eqOfData (List.append_cancel_right hpq)

/-! ### Lemmas about the stable descending sort -/

theorem insertDesc_perm (x : String × Nat) (l : List (String × Nat)) :
    (insertDesc x l).Perm (x :: l) := by
  induction l with
  | nil => exact List.Perm.refl _
  | cons y ys ih =>
    simp only [insertDesc]
    split
    · exact List.Perm.refl _
    · exact (ih.cons y).trans (List.Perm.swap x y ys)

theorem sortDesc_perm (l : List (String × Nat)) : (sortDesc l).Perm l := by
  induction l with
  | nil => exact List.Perm.refl _
  | cons x xs ih => exact (insertDesc_perm x (sortDesc xs)).trans (ih.cons x)

theorem mem_sortDesc {l : List (String × Nat)} {pc : String × Nat} :
    pc ∈ sortDesc l ↔ pc ∈ l :=
  (sortDesc_perm l).mem_iff

theorem insertDesc_pairwise (x : String × Nat) (l : List (String × Nat))
    (h : l.Pairwise (fun a b => b.2 ≤ a.2)) :
    (insertDesc x l).Pairwise (fun a b => b.2 ≤ a.2) := by
  induction l with
  | nil => simp [insertDesc]
  | cons y ys ih =>
    have hy : ∀ z ∈ ys, z.2 ≤ y.2 := fun z hz => List.rel_of_pairwise_cons h hz
    have hys : ys.Pairwise (fun a b => b.2 ≤ a.2) := List.Pairwise.of_cons h
    simp only [insertDesc]
    by_cases hc : y.2 ≤ x.2
    · rw [if_pos hc]
      refine List.Pairwise.cons ?_ h
      intro z hz
      rcases List.mem_cons.mp hz with hz | hz
      · subst hz
        exact hc
      · exact le_trans (hy z hz) hc
    · rw [if_neg hc]
      refine List.Pairwise.cons ?_ (ih hys)
      intro z hz
      rcases List.mem_cons.mp ((insertDesc_perm x ys).mem_iff.mp hz) with hz' | hz'
      · subst hz'
        omega
      · exact hy z hz'

theorem sortDesc_pairwise (l : List (String × Nat)) :
    (sortDesc l).Pairwise (fun a b => b.2 ≤ a.2) := by
  induction l with
  | nil => simp [sortDesc]
  | cons x xs ih => exact insertDesc_pairwise x (sortDesc xs) ih

theorem le_max_bashes {l : List (String × Nat)} {pc : String × Nat} (h : pc ∈ l) :
    pc.2 ≤ max_bashes (sortDesc l) := by
  have hmem : pc ∈ sortDesc l := mem_sortDesc.mpr h
  rcases hs : sortDesc l with _ | ⟨x, t⟩
  · rw [hs] at hmem
    cases hmem
  · have hp := sortDesc_pairwise l
    rw [hs] at hp hmem
    have hx : ∀ z ∈ t, z.2 ≤ x.2 := fun z hz => List.rel_of_pairwise_cons hp hz
    rcases List.mem_cons.mp hmem with hmem | hmem
    · subst hmem
      simp [max_bashes]
    · simpa [max_bashes] using hx pc hmem

theorem max_bashes_attained {l : List (String × Nat)} (h : l ≠ []) :
    ∃ p, (p, max_bashes (sortDesc l)) ∈ l := by
  rcases hs : sortDesc l with _ | ⟨x, t⟩
  · have := (sortDesc_perm l).length_eq
    rw [hs] at this
    cases l with
    | nil => exact absurd rfl h
    | cons a as => simp at this
  · refine ⟨x.1, ?_⟩
    have hx : x ∈ sortDesc l := by
      rw [hs]
      exact List.mem_cons_self x t
    have : x ∈ l := mem_sortDesc.mp hx
    simpa [max_bashes, hs] using this

/-! ### Association-list (dict) lemmas -/

theorem keys_nodup_count_eq {b : Battle} (h : (b.map (·.1)).Nodup) {p : String}
    {c d : Nat} (h1 : (p, c) ∈ b) (h2 : (p, d) ∈ b) : c = d := by
  induction b with
  | nil => cases h1
  | cons x xs ih =>
    have hmap : (List.map (·.1) (x :: xs)) = x.1 :: xs.map (·.1) := rfl
    rw [hmap] at h
    have hx : x.1 ∉ xs.map (·.1) := (List.nodup_cons.mp h).1
    have hxs : (xs.map (·.1)).Nodup := (List.nodup_cons.mp h).2
    rcases List.mem_cons.mp h1 with h1 | h1 <;> rcases List.mem_cons.mp h2 with h2 | h2
    · rw [← h1] at h2
      exact ((Prod.mk.injEq _ _ _ _).mp h2).2.symm
    · exfalso
      apply hx
      rw [← h1]
      exact List.mem_map.mpr ⟨(p, d), h2, rfl⟩
    · exfalso
      apply hx
      rw [← h2]
      exact List.mem_map.mpr ⟨(p, c), h1, rfl⟩
    · exact ih hxs h1 h2

/-! ### Unfolding the GUI summary fields -/

theorem show_summary_top_pay (bs : List Battle) (pv tv : String) (hbs : bs ≠ []) :
    (show_summary_in_gui bs pv tv).top_pay_line
      = top_pay_of ((bs.getLast?).getD []) (toRate tv) := by
  simp [show_summary_in_gui, hbs]

theorem show_summary_payout_lines (bs : List Battle) (pv tv : String) (hbs : bs ≠ []) :
    (show_summary_in_gui bs pv tv).payout_lines
      = (payout_pairs_of ((bs.getLast?).getD []) (toRate pv)).map
          (fun pa => payCmd pa.1 pa.2) := by
  simp [show_summary_in_gui, hbs]

theorem show_summary_total (bs : List Battle) (pv tv : String) (hbs : bs ≠ []) :
    (show_summary_in_gui bs pv tv).total_battle_payout
      = ((payout_pairs_of ((bs.getLast?).getD []) (toRate pv)).map (·.2)).sum := by
  simp [show_summary_in_gui, hbs]

/-! ### Claim C9 -/

/-- C9: if the input file cannot be opened or located, the analysis yields an
empty BattleList and surfaces the underlying access error (the printed
`Error reading file: ...` report); the embedded function is total, so no
exception propagates past the component boundary. -/
theorem C9_access_error (e : String) :
    count_greedy_bashes_per_battle (Except.error e)
      = ([], some ("Error reading file: " ++ e)) := rfl

/-! ### Claim C10 -/

/-- C10: a non-numeric or blank rate value parses to `none`, is treated as
zero, and disables the corresponding payout category (no top-bonus commands
when it is the top-bonus field; no per-hit commands and a zero total when it
is the pay-per-hit field), for every battle list and independently of the
other field. -/
theorem C10_nonnumeric_rates (s : String) (h : pyInt s = none) :
    toRate s = 0
    ∧ (∀ battles pv, (show_summary_in_gui battles pv s).top_pay_line = [])
    ∧ (∀ battles tv, (show_summary_in_gui battles s tv).payout_lines = []
        ∧ (show_summary_in_gui battles s tv).total_battle_payout = 0) := by
  have hz : toRate s = 0 := by simp [toRate, h]
  refine ⟨hz, ?_, ?_⟩
  · intro battles pv
    by_cases hb : battles = []
    · subst hb
      simp [show_summary_in_gui]
    · rw [show_summary_top_pay battles pv s hb]
      simp [top_pay_of, hz]
  · intro battles tv
    by_cases hb : battles = []
    · subst hb
      simp [show_summary_in_gui]
    · rw [show_summary_payout_lines battles s tv hb, show_summary_total battles s tv hb]
      simp [payout_pairs_of, hz]

/-- Witness for C10 at the blank string: `int("")` raises, so both categories
are disabled. -/
theorem C10_nonnumeric_rates_witness :
    pyInt "" = none ∧ toRate "" = 0
      ∧ (show_summary_in_gui [[("A", 1)]] "100" "").top_pay_line = []
      ∧ (show_summary_in_gui [[("A", 1)]] "" "500").payout_lines = []
      ∧ (show_summary_in_gui [[("A", 1)]] "" "500").total_battle_payout = 0 := by
  have h : pyInt "" = none := by decide
  have := C10_nonnumeric_rates "" h
  exact ⟨h, this.1, this.2.1 [[("A", 1)]] "100", (this.2.2 [[("A", 1)]] "500").1,
    (this.2.2 [[("A", 1)]] "500").2⟩

/-! ### Claim C6 -/

/-- C6 counterexample: with battle `{A: 1}`, pay-per-hit 100 and top-bonus 500
the displayed total is 100, not the 600 the claim's rule (per-hit amounts plus
one top-bonus per top-tied actor) would give: the top-bonus is never folded
into `total_battle_payout`. -/
theorem C6_counterexample :
    (show_summary_in_gui [[("A", 1)]] "100" "500").total_battle_payout = 100
    ∧ (show_summary_in_gui [[("A", 1)]] "100" "500").total_battle_payout ≠ 100 + 500 := by
  constructor
  · decide
  · decide

/-- C6 amended: in both observed variants the displayed total equals the sum
of the per-hit payout amounts only (pay-per-hit times count over the last
battle when pay-per-hit is positive, else zero); the top-bonus configuration
value never enters the total. -/
theorem C6_amended_total (battles : List Battle) (pv tv : String) :
    (show_summary_in_gui battles pv tv).total_battle_payout
      = (if 0 < toRate pv ∧ (battles.getLast?).getD [] ≠ []
          then (((battles.getLast?).getD []).map (fun pc => toRate pv * (pc.2 : Int))).sum
          else 0)
    ∧ (show_summary_in_gui battles pv tv).total_battle_payout
      = (show_summary_in_gui battles pv "0").total_battle_payout := by
  by_cases hb : battles = []
  · subst hb
    simp [show_summary_in_gui]
  · have h1 := show_summary_total battles pv tv hb
    have h2 := show_summary_total battles pv "0" hb
    refine ⟨?_, by rw [h1, h2]⟩
    rw [h1]
    simp only [payout_pairs_of]
    by_cases hc : 0 < toRate pv ∧ (battles.getLast?).getD [] ≠ []
    · rw [if_pos hc, if_pos hc, List.map_map]
      exact ((sortDesc_perm ((battles.getLast?).getD [])).map _).sum_eq
    · rw [if_neg hc, if_neg hc]
      rfl

/-! ### Claim C1 -/

theorem top_bashers_keys_nodup {b : Battle} (hkeys : (b.map (·.1)).Nodup) :
    (top_bashers_of (sortDesc b)).Nodup := by
  have hsorted : ((sortDesc b).map (·.1)).Nodup :=
    ((sortDesc_perm b).map (·.1)).nodup_iff.mpr hkeys
  have hsub : ((sortDesc b).filter
        (fun pc => pc.2 == max_bashes (sortDesc b))).Sublist (sortDesc b) :=
    List.filter_sublist _
  exact (hsub.map (·.1)).nodup hsorted

theorem mem_top_bashers {b : Battle} {p : String} :
    p ∈ top_bashers_of (sortDesc b)
      ↔ (p, max_bashes (sortDesc b)) ∈ b := by
  constructor
  · intro h
    rcases List.mem_map.mp h with ⟨pc, hpc, hfst⟩
    rcases List.mem_filter.mp hpc with ⟨hmem, hbeq⟩
    have h2 : pc.2 = max_bashes (sortDesc b) := by simpa using hbeq
    have : pc ∈ b := mem_sortDesc.mp hmem
    rw [← hfst, ← h2]
    simpa using this
  · intro h
    refine List.mem_map.mpr ⟨(p, max_bashes (sortDesc b)), ?_, rfl⟩
    refine List.mem_filter.mpr ⟨mem_sortDesc.mpr h, by simp⟩

/-- C1: for the last battle, with a positive top-bonus rate, the top-bonus
command list has no duplicates and contains the full-amount command for an
actor of the battle exactly when that actor's count is maximal (ties all paid
in full, smaller counts receive nothing); concretely, counts
{A:3, B:3, C:1} with top-bonus 500 yield exactly the two commands for A and B,
each for 500, and none for C. -/
theorem C1_top_bonus_ties (bs : List Battle) (b : Battle) (pv tv : String)
    (hlast : bs.getLast? = some b) (hkeys : (b.map (·.1)).Nodup)
    (ht : 0 < toRate tv) :
    ((show_summary_in_gui bs pv tv).top_pay_line.Nodup
      ∧ (∀ p c, (p, c) ∈ b →
          (payCmd p (toRate tv) ∈ (show_summary_in_gui bs pv tv).top_pay_line
            ↔ (∀ q d, (q, d) ∈ b → d ≤ c))))
    ∧ (show_summary_in_gui [[("A", 3), ("B", 3), ("C", 1)]] "0" "500").top_pay_line
        = [payCmd "A" 500, payCmd "B" 500] := by
  have hbs : bs ≠ [] := by
    intro hh
    subst hh
    simp at hlast
  have htop := show_summary_top_pay bs pv tv hbs
  rw [hlast] at htop
  simp only [Option.getD_some] at htop
  have hinj : Function.Injective (fun p => payCmd p (toRate tv)) :=
    fun _ _ h => payCmd_inj_left h
  refine ⟨⟨?_, ?_⟩, by decide⟩
  · rw [htop, top_pay_of]
    split
    · exact ((top_bashers_keys_nodup hkeys).map hinj)
    · exact List.nodup_nil
  · intro p c hpc
    have hbne : b ≠ [] := by
      intro hh
      subst hh
      cases hpc
    rw [htop, top_pay_of, if_pos ⟨hbne, ht⟩]
    constructor
    · intro hmem
      rcases List.mem_map.mp hmem with ⟨p', hp', heq⟩
      have hpp : p' = p := hinj heq
      subst hpp
      have hmax : (p', max_bashes (sortDesc b)) ∈ b := mem_top_bashers.mp hp'
      have hc : c = max_bashes (sortDesc b) := keys_nodup_count_eq hkeys hpc hmax
      intro q d hqd
      rw [hc]
      exact le_max_bashes hqd
    · intro hall
      have hle : c ≤ max_bashes (sortDesc b) := le_max_bashes hpc
      have hge : max_bashes (sortDesc b) ≤ c := by
        rcases max_bashes_attained hbne with ⟨q, hq⟩
        exact hall q _ hq
      have hc : c = max_bashes (sortDesc b) := le_antisymm hle hge
      refine List.mem_map.mpr ⟨p, ?_, rfl⟩
      exact mem_top_bashers.mpr (hc ▸ hpc)

/-- Witness for C1: the tie-break example applied concretely. -/
theorem C1_top_bonus_ties_witness :
    (show_summary_in_gui [[("A", 3), ("B", 3), ("C", 1)]] "0" "500").top_pay_line
      = [payCmd "A" 500, payCmd "B" 500] :=
  (C1_top_bonus_ties [[("A", 3), ("B", 3), ("C", 1)]] [("A", 3), ("B", 3), ("C", 1)]
    "0" "500" (by decide) (by decide) (by decide)).2

/-! ### Claim C2 -/

/-- C2: with a positive pay-per-hit rate, the per-hit command list is exactly
one command per actor of the last battle, in descending order of count (a
stable permutation of the battle), of amount rate times count — so every
actor with a positive count receives exactly one such command — and the
amounts accumulate into the displayed running total. -/
theorem C2_per_hit_payout (bs : List Battle) (b : Battle) (pv tv : String)
    (hlast : bs.getLast? = some b) (hkeys : (b.map (·.1)).Nodup)
    (hp : 0 < toRate pv) :
    ((show_summary_in_gui bs pv tv).payout_lines
        = (sortDesc b).map (fun pc => payCmd pc.1 (toRate pv * (pc.2 : Int))))
    ∧ (sortDesc b).Pairwise (fun x y => y.2 ≤ x.2)
    ∧ (sortDesc b).Perm b
    ∧ ((payout_pairs_of b (toRate pv)).Nodup
        ∧ ∀ p c, (p, c) ∈ b → 0 < c →
          payCmd p (toRate pv * (c : Int)) ∈ (show_summary_in_gui bs pv tv).payout_lines
          ∧ (p, toRate pv * (c : Int)) ∈ payout_pairs_of b (toRate pv))
    ∧ (show_summary_in_gui bs pv tv).total_battle_payout
        = (b.map (fun pc => toRate pv * (pc.2 : Int))).sum := by
  have hbs : bs ≠ [] := by
    intro hh
    subst hh
    simp at hlast
  have hlines := show_summary_payout_lines bs pv tv hbs
  have htotal := show_summary_total bs pv tv hbs
  rw [hlast] at hlines htotal
  simp only [Option.getD_some] at hlines htotal
  by_cases hbne : b = []
  · subst hbne
    refine ⟨?_, by simp [sortDesc], by simp [sortDesc], ⟨?_, ?_⟩, ?_⟩
    · rw [hlines]
      simp [payout_pairs_of, sortDesc]
    · simp [payout_pairs_of, sortDesc]
    · intro p c hpc
      cases hpc
    · rw [htotal]
      simp [payout_pairs_of, sortDesc]
  · have hpairs : payout_pairs_of b (toRate pv)
        = (sortDesc b).map (fun pc => (pc.1, toRate pv * (pc.2 : Int))) := by
      rw [payout_pairs_of, if_pos ⟨hp, hbne⟩]
    have hpkeys : ((payout_pairs_of b (toRate pv)).map (·.1)).Nodup := by
      rw [hpairs, List.map_map]
      exact ((sortDesc_perm b).map (·.1)).nodup_iff.mpr hkeys
    have hpairs_nodup : (payout_pairs_of b (toRate pv)).Nodup := hpkeys.of_map
    refine ⟨?_, sortDesc_pairwise b, sortDesc_perm b, ⟨hpairs_nodup, ?_⟩, ?_⟩
    · rw [hlines, hpairs, List.map_map]
      rfl
    · intro p c hpc _
      have hmem : (p, toRate pv * (c : Int)) ∈ payout_pairs_of b (toRate pv) := by
        rw [hpairs]
        exact List.mem_map.mpr ⟨(p, c), mem_sortDesc.mpr hpc, rfl⟩
      refine ⟨?_, hmem⟩
      rw [hlines]
      exact List.mem_map.mpr ⟨(p, toRate pv * (c : Int)), hmem, rfl⟩
    · rw [htotal, hpairs, List.map_map]
      exact ((sortDesc_perm b).map _).sum_eq

/-- Witness for C2: the end-to-end battle `{Redbeard: 2, Shorty: 1}` with
pay-per-hit 100. -/
theorem C2_per_hit_payout_witness :
    payCmd "Redbeard" ((toRate "100") * ((2 : Nat) : Int))
        ∈ (show_summary_in_gui [[("Redbeard", 2), ("Shorty", 1)]] "100" "500").payout_lines
      ∧ ("Redbeard", (toRate "100") * ((2 : Nat) : Int))
          ∈ payout_pairs_of [("Redbeard", 2), ("Shorty", 1)] (toRate "100") :=
  (C2_per_hit_payout [[("Redbeard", 2), ("Shorty", 1)]] [("Redbeard", 2), ("Shorty", 1)]
    "100" "500" (by decide) (by decide) (by decide)).2.2.2.1.2 "Redbeard" 2
    (by decide) (by decide)

/-! ### Segmenter invariants -/

theorem segLoop_length_le (lines : List String) :
    ∀ (inb : Bool) (cur : Battle) (acc : List Battle),
      (segLoop lines inb cur acc).length
        ≤ acc.length + lines.countP (fun l => isMarker l) + (if inb then 1 else 0) := by
  induction lines with
  | nil =>
    intro inb cur acc
    simp only [segLoop, List.countP_nil]
    split
    · rename_i hcond
      rw [hcond.1]
      simp
    · split <;> simp
  | cons line rest ih =>
    intro inb cur acc
    cases hm : isMarker line with
    | true =>
      have hacc : (if inb ∧ cur ≠ [] then acc ++ [cur] else acc).length
          ≤ acc.length + (if inb then 1 else 0) := by
        split
        · rename_i hc
          rw [hc.1]
          simp
        · split <;> simp
      simp only [segLoop, hm, if_true]
      refine le_trans (ih true [] _) ?_
      simp only [List.countP_cons, hm, if_true]
      omega
    | false =>
      have hcount : (line :: rest).countP (fun l => isMarker l)
          = rest.countP (fun l => isMarker l) := by
        simp [List.countP_cons, hm]
      cases inb with
      | true =>
        cases hmb : matchBash line with
        | some p =>
          simp only [segLoop, hm, hmb]
          rw [hcount]
          exact ih true (bump cur p) acc
        | none =>
          simp only [segLoop, hm, hmb]
          rw [hcount]
          exact ih true cur acc
      | false =>
        simp only [segLoop, hm]
        rw [hcount]
        exact ih false cur acc

theorem segLoop_no_marker (lines : List String) :
    ∀ (cur : Battle) (acc : List Battle), (∀ l ∈ lines, isMarker l = false) →
      segLoop lines false cur acc = acc := by
  induction lines with
  | nil =>
    intro cur acc _
    simp [segLoop]
  | cons line rest ih =>
    intro cur acc h
    have hm : isMarker line = false := h line (List.mem_cons_self line rest)
    simp only [segLoop, hm]
    exact ih cur acc (fun l hl => h l (List.mem_cons_of_mem line hl))

theorem segLoop_eq_NF_append (lines : List String) :
    ∀ (inb : Bool) (cur : Battle) (acc : List Battle),
      segLoop lines inb cur acc
        = segLoopNF lines inb cur acc
          ++ (if (lines.foldl stepState (inb, cur)).1
                ∧ (lines.foldl stepState (inb, cur)).2 ≠ []
              then [(lines.foldl stepState (inb, cur)).2] else []) := by
  induction lines with
  | nil =>
    intro inb cur acc
    simp only [segLoop, segLoopNF, List.foldl_nil]
    split
    · rfl
    · simp
  | cons line rest ih =>
    intro inb cur acc
    cases hm : isMarker line with
    | true =>
      simp only [segLoop, segLoopNF, List.foldl_cons, stepState, hm, if_true]
      exact ih true [] _
    | false =>
      cases inb with
      | true =>
        cases hmb : matchBash line with
        | some p =>
          simp only [segLoop, segLoopNF, List.foldl_cons, stepState, hm, hmb]
          exact ih true (bump cur p) acc
        | none =>
          simp only [segLoop, segLoopNF, List.foldl_cons, stepState, hm, hmb]
          exact ih true cur acc
      | false =>
        simp only [segLoop, segLoopNF, List.foldl_cons, stepState, hm]
        exact ih false cur acc

theorem segLoop_nonempty_mem (lines : List String) :
    ∀ (inb : Bool) (cur : Battle) (acc : List Battle), (∀ x ∈ acc, x ≠ []) →
      ∀ x ∈ segLoop lines inb cur acc, x ≠ [] := by
  induction lines with
  | nil =>
    intro inb cur acc hacc x hx
    simp only [segLoop] at hx
    split at hx
    · rename_i hc
      rcases List.mem_append.mp hx with hx | hx
      · exact hacc x hx
      · rw [List.mem_singleton.mp hx]
        exact hc.2
    · exact hacc x hx
  | cons line rest ih =>
    intro inb cur acc hacc x hx
    cases hm : isMarker line with
    | true =>
      simp only [segLoop, hm, if_true] at hx
      refine ih true [] _ ?_ x hx
      intro y hy
      split at hy
      · rename_i hc
        rcases List.mem_append.mp hy with hy | hy
        · exact hacc y hy
        · rw [List.mem_singleton.mp hy]
          exact hc.2
      · exact hacc y hy
    | false =>
      cases inb with
      | true =>
        cases hmb : matchBash line with
        | some p =>
          simp only [segLoop, hm, hmb] at hx
          exact ih true (bump cur p) acc hacc x hx
        | none =>
          simp only [segLoop, hm, hmb] at hx
          exact ih true cur acc hacc x hx
      | false =>
        simp only [segLoop, hm] at hx
        exact ih false cur acc hacc x hx

theorem segLoop_no_match (lines : List String) :
    ∀ (inb : Bool) (acc : List Battle), (∀ l ∈ lines, matchBash l = none) →
      segLoop lines inb [] acc = acc := by
  induction lines with
  | nil =>
    intro inb acc _
    simp [segLoop]
  | cons line rest ih =>
    intro inb acc h
    have hrest : ∀ l ∈ rest, matchBash l = none :=
      fun l hl => h l (List.mem_cons_of_mem line hl)
    cases hm : isMarker line with
    | true =>
      simp only [segLoop, hm, if_true]
      rw [if_neg (by simp)]
      exact ih true acc hrest
    | false =>
      cases inb with
      | true =>
        simp only [segLoop, hm, h line (List.mem_cons_self line rest)]
        exact ih true acc hrest
      | false =>
        simp only [segLoop, hm]
        exact ih false acc hrest

/-! ### Claim C3 -/

/-- C3: the segmenter returns at most as many battles as there are
boundary-marker lines (consecutive markers with nothing counted in between
never add an extra entry, because empty flushes are dropped), and an input
with no marker line at all yields an empty BattleList regardless of its
content. -/
theorem C3_battles_le_markers (lines : List String) :
    (countCore lines).length ≤ lines.countP (fun l => isMarker l)
    ∧ (lines.countP (fun l => isMarker l) = 0 → countCore lines = []) := by
  constructor
  · have h := segLoop_length_le lines false [] []
    simpa [countCore] using h
  · intro h0
    have hall : ∀ l ∈ lines, isMarker l = false := by
      intro l hl
      have := List.countP_eq_zero.mp h0 l hl
      simpa using this
    exact segLoop_no_marker lines [] [] hall

/-- Witness for C3: a marker-free input yields no battles. -/
theorem C3_battles_le_markers_witness :
    countCore ["hello world"] = [] :=
  (C3_battles_le_markers ["hello world"]).2 (by decide)

/-! ### Claim C4 -/

/-- C4: the segmenter's output is exactly the battles flushed by boundary
markers followed by the terminal flush: when the input ends with a battle
open (`in_battle` set by a marker) and at least one counted event, that
battle is appended at end of input, and this is the only way a battle is
recorded without a subsequent boundary marker (all other entries come from
`markerFlushed`). -/
theorem C4_terminal_flush (lines : List String) :
    countCore lines
      = markerFlushed lines
        ++ (if (finalState lines).1 ∧ (finalState lines).2 ≠ []
            then [(finalState lines).2] else []) := by
  have h := segLoop_eq_NF_append lines false [] []
  simpa [countCore, markerFlushed, finalState] using h

/-! ### Claim C5 -/

/-- C5: every battle the segmenter returns has at least one counted event
(empty battles are dropped on both the boundary-triggered and the terminal
flush path); in particular any input whose lines all fail the event matcher —
such as one containing exactly one boundary marker and zero matching attack
lines — yields an empty BattleList. -/
theorem C5_no_empty_battles (lines : List String) :
    (∀ b ∈ countCore lines, b ≠ [])
    ∧ ((∀ l ∈ lines, matchBash l = none) → countCore lines = []) := by
  constructor
  · exact segLoop_nonempty_mem lines false [] [] (by simp)
  · intro h
    exact segLoop_no_match lines false [] h

/-- Witness for C5: one boundary marker, no matching attack lines. -/
theorem C5_no_empty_battles_witness :
    countCore ["Game over"] = [] :=
  (C5_no_empty_battles ["Game over"]).2 (by decide)

/-! ### Claim C7 -/

/-- C7 counterexample: the generated commands use the fixed verb literal
`/pay`, not `pay`: on the end-to-end example the pipeline produces
`/pay Redbeard 500`, `/pay Redbeard 200`, `/pay Shorty 100`, and the claim's
`pay ...` strings appear nowhere. -/
theorem C7_counterexample :
    (show_summary_in_gui (countCore exampleLines) "100" "500").top_pay_line
        = ["/pay Redbeard 500"]
    ∧ (show_summary_in_gui (countCore exampleLines) "100" "500").payout_lines
        = ["/pay Redbeard 200", "/pay Shorty 100"]
    ∧ "pay Redbeard 500"
        ∉ (show_summary_in_gui (countCore exampleLines) "100" "500").top_pay_line
    ∧ "pay Redbeard 200"
        ∉ (show_summary_in_gui (countCore exampleLines) "100" "500").payout_lines := by
  refine ⟨by decide, by decide, by decide, by decide⟩

/-- C7 amended: every generated payout command string (per-hit and top-bonus)
has the form `/pay <actor> <amount>` with the fixed verb literal `/pay`; the
end-to-end example yields the commands `/pay Redbeard 500`,
`/pay Redbeard 200`, `/pay Shorty 100`. -/
theorem C7_command_form (battles : List Battle) (pv tv : String) :
    ((∀ cmd ∈ (show_summary_in_gui battles pv tv).top_pay_line,
        ∃ (a : String) (amt : Int), cmd = "/pay " ++ a ++ " " ++ toString amt)
      ∧ (∀ cmd ∈ (show_summary_in_gui battles pv tv).payout_lines,
          ∃ (a : String) (amt : Int), cmd = "/pay " ++ a ++ " " ++ toString amt))
    ∧ (show_summary_in_gui (countCore exampleLines) "100" "500").top_pay_line
        = ["/pay Redbeard 500"]
    ∧ (show_summary_in_gui (countCore exampleLines) "100" "500").payout_lines
        = ["/pay Redbeard 200", "/pay Shorty 100"] := by
  refine ⟨⟨?_, ?_⟩, by decide, by decide⟩
  · intro cmd hcmd
    by_cases hb : battles = []
    · subst hb
      simp [show_summary_in_gui] at hcmd
    · rw [show_summary_top_pay battles pv tv hb, top_pay_of] at hcmd
      split at hcmd
      · rcases List.mem_map.mp hcmd with ⟨p, _, heq⟩
        exact ⟨p, toRate tv, heq.symm⟩
      · cases hcmd
  · intro cmd hcmd
    by_cases hb : battles = []
    · subst hb
      simp [show_summary_in_gui] at hcmd
    · rw [show_summary_payout_lines battles pv tv hb] at hcmd
      rcases List.mem_map.mp hcmd with ⟨pa, _, heq⟩
      exact ⟨pa.1, pa.2, heq.symm⟩

/-- Witness for C7: the form statement applied to a concrete command of a
concrete battle. -/
theorem C7_command_form_witness :
    ∃ (a : String) (amt : Int), "/pay A 100" = "/pay " ++ a ++ " " ++ toString amt :=
  (C7_command_form [[("A", 1)]] "100" "500").1.2 "/pay A 100" (by decide)

/-! ### Regex-matcher evaluation lemmas (for claim C8) -/

theorem isPrefixOf_length_le {l1 : List Char} :
    ∀ l2 : List Char, l1.isPrefixOf l2 = true → l1.length ≤ l2.length := by
  induction l1 with
  | nil => intro l2 _; simp
  | cons c l1 ih =>
    intro l2 h
    cases l2 with
    | nil => simp [List.isPrefixOf] at h
    | cons d l2 =>
      simp only [List.isPrefixOf, Bool.and_eq_true] at h
      have := ih l2 h.2
      simp
      omega

theorem isPrefixOf_false_of_lt {T v : List Char} (h : v.length < T.length) :
    T.isPrefixOf v = false := by
  by_contra hc
  rw [Bool.not_eq_false] at hc
  have := isPrefixOf_length_le v hc
  omega

theorem isPrefixOf_append_self {cs : List Char} :
    ∀ rest : List Char, cs.isPrefixOf (cs ++ rest) = true := by
  induction cs with
  | nil => intro rest; simp [List.isPrefixOf]
  | cons c cs ih => intro rest; simp [List.isPrefixOf, ih rest]

theorem mtch_lit_fail {cs s : List Char} {k : List Char → Option Cap}
    (h : cs.isPrefixOf s = false) : ∀ f, mtch f (.lit cs) s k = none := by
  intro f
  cases f with
  | zero => rfl
  | succ f => simp [mtch, h]

theorem mtch_lit_ok {cs rest : List Char} {k : List Char → Option Cap} :
    ∀ f, 1 ≤ f → mtch f (.lit cs) (cs ++ rest) k = k rest := by
  intro f hf
  obtain ⟨f', rfl⟩ : ∃ g, f = g + 1 := ⟨f - 1, by omega⟩
  simp [mtch, isPrefixOf_append_self rest, List.drop_left]

theorem cat_lit_head_fail {d : Char} {cs' : List Char} {R : RE}
    {k : List Char → Option Cap} {c : Char} {X : List Char} (h : c ≠ d) :
    ∀ f, mtch f (.cat (.lit (d :: cs')) R) (c :: X) k = none := by
  intro f
  cases f with
  | zero => rfl
  | succ f =>
    have hpre : (d :: cs').isPrefixOf (c :: X) = false := by
      simp only [List.isPrefixOf, Bool.and_eq_false_iff]
      left
      simp [beq_eq_false_iff_ne]
      exact fun hh => h hh.symm
    simp only [mtch]
    exact mtch_lit_fail hpre f

theorem starLazy_scan {k' : List Char → Option Cap} {v : Cap} {stop : List Char}
    (hstop : k' stop = some v) :
    ∀ (pre : List Char) (f : Nat),
      (∀ i, i < pre.length → k' (pre.drop i ++ stop) = none) →
      (∀ c ∈ pre, c ≠ '\n') →
      pre.length + 2 ≤ f →
      mtch f (.starLazy .dot) (pre ++ stop) k' = some v := by
  intro pre
  induction pre with
  | nil =>
    intro f _ _ hf
    obtain ⟨f', rfl⟩ : ∃ g, f = g + 1 := ⟨f - 1, by omega⟩
    simp [mtch, hstop]
  | cons c pre ih =>
    intro f hfail hnl hf
    obtain ⟨f1, rfl⟩ : ∃ g, f = g + 1 := ⟨f - 1, by omega⟩
    have h0 : k' (c :: pre ++ stop) = none := by
      have := hfail 0 (by simp)
      simpa using this
    have hc : ¬ (c = '\n') := hnl c (by simp)
    obtain ⟨f2, rfl⟩ : ∃ g, f1 = g + 1 := ⟨f1 - 1, by omega⟩
    show ((k' (c :: pre ++ stop)).orElse
        (fun _ => mtch (f2 + 1) .dot (c :: pre ++ stop)
          (fun r => mtch (f2 + 1) (.starLazy .dot) r k'))) = some v
    rw [h0]
    show mtch (f2 + 1) .dot (c :: (pre ++ stop))
        (fun r => mtch (f2 + 1) (.starLazy .dot) r k') = some v
    simp only [mtch, if_neg hc]
    refine ih (f2 + 1) ?_ ?_ ?_
    · intro i hi
      have := hfail (i + 1) (by simpa using Nat.succ_lt_succ hi)
      simpa using this
    · exact fun d hd => hnl d (List.mem_cons_of_mem c hd)
    · simp at hf
      omega

theorem orElse_eval_none {α : Type} {g : Unit → Option α} :
    (none : Option α).orElse g = g () := rfl

theorem orElse_eval_some {α : Type} {v : α} {g : Unit → Option α} :
    (some v).orElse g = some v := rfl

theorem mtch_dot_nil {k : List Char → Option Cap} : ∀ f, mtch f .dot [] k = none := by
  intro f
  cases f <;> rfl

theorem starGreedy_short {T : List Char} {g : Nat} {k0 : List Char → Option Cap} :
    ∀ (v : List Char) (f : Nat), v.length < T.length → (∀ c ∈ v, c ≠ '\n') →
      mtch f (.starGreedy .dot) v (fun r => mtch g (.lit T) r k0) = none := by
  intro v
  induction v with
  | nil =>
    intro f hlen _
    cases f with
    | zero => rfl
    | succ f =>
      have hT : T.isPrefixOf ([] : List Char) = false :=
        isPrefixOf_false_of_lt (by simpa using hlen)
      show (mtch f .dot []
          (fun r => mtch f (.starGreedy .dot) r (fun r => mtch g (.lit T) r k0))).orElse
            (fun _ => mtch g (.lit T) [] k0) = none
      rw [mtch_dot_nil, orElse_eval_none, mtch_lit_fail hT]
  | cons c v ih =>
    intro f hlen hnl
    cases f with
    | zero => rfl
    | succ f =>
      have hc : ¬ (c = '\n') := hnl c (by simp)
      have hT : T.isPrefixOf (c :: v) = false :=
        isPrefixOf_false_of_lt (by simpa using hlen)
      show (mtch f .dot (c :: v)
          (fun r => mtch f (.starGreedy .dot) r (fun r => mtch g (.lit T) r k0))).orElse
            (fun _ => mtch g (.lit T) (c :: v) k0) = none
      have hfirst : mtch f .dot (c :: v)
          (fun r => mtch f (.starGreedy .dot) r (fun r => mtch g (.lit T) r k0)) = none := by
        cases f with
        | zero => rfl
        | succ f' =>
          show (if c = '\n' then none
              else mtch (f' + 1) (.starGreedy .dot) v (fun r => mtch g (.lit T) r k0)) = none
          rw [if_neg hc]
          exact ih (f' + 1) (by simp at hlen ⊢; omega)
            (fun d hd => hnl d (List.mem_cons_of_mem c hd))
      rw [hfirst, orElse_eval_none, mtch_lit_fail hT]

theorem starGreedy_find {T : List Char} {g : Nat} {k0 : List Char → Option Cap} {v : Cap}
    (hT : T ≠ []) (hTn : ∀ c ∈ T, c ≠ '\n') (hg : 1 ≤ g) (hk0 : k0 [] = some v) :
    ∀ (w : List Char) (f : Nat), (∀ c ∈ w, c ≠ '\n') → w.length + 2 ≤ f →
      mtch f (.starGreedy .dot) (w ++ T) (fun r => mtch g (.lit T) r k0) = some v := by
  intro w
  induction w with
  | nil =>
    intro f _ hf
    obtain ⟨f1, rfl⟩ : ∃ a, f = a + 1 := ⟨f - 1, by omega⟩
    obtain ⟨c, T', rfl⟩ : ∃ c T', T = c :: T' := by
      cases T with
      | nil => exact absurd rfl hT
      | cons c T' => exact ⟨c, T', rfl⟩
    show (mtch f1 .dot ([] ++ c :: T')
        (fun r => mtch f1 (.starGreedy .dot) r (fun r => mtch g (.lit (c :: T')) r k0))).orElse
          (fun _ => mtch g (.lit (c :: T')) ([] ++ c :: T') k0) = some v
    have hc : ¬ (c = '\n') := hTn c (by simp)
    obtain ⟨f2, rfl⟩ : ∃ a, f1 = a + 1 := ⟨f1 - 1, by omega⟩
    have hfirst : mtch (f2 + 1) .dot ([] ++ c :: T')
        (fun r => mtch (f2 + 1) (.starGreedy .dot) r
          (fun r => mtch g (.lit (c :: T')) r k0)) = none := by
      show (if c = '\n' then none
          else mtch (f2 + 1) (.starGreedy .dot) T'
            (fun r => mtch g (.lit (c :: T')) r k0)) = none
      rw [if_neg hc]
      exact starGreedy_short T' (f2 + 1) (by simp)
        (fun d hd => hTn d (List.mem_cons_of_mem c hd))
    rw [hfirst, orElse_eval_none]
    have := @mtch_lit_ok (c :: T') [] k0 g hg
    rw [List.append_nil] at this
    rw [List.nil_append, this, hk0]
  | cons c w ih =>
    intro f hnl hf
    obtain ⟨f1, rfl⟩ : ∃ a, f = a + 1 := ⟨f - 1, by omega⟩
    have hc : ¬ (c = '\n') := hnl c (by simp)
    show (mtch f1 .dot (c :: (w ++ T))
        (fun r => mtch f1 (.starGreedy .dot) r (fun r => mtch g (.lit T) r k0))).orElse
          (fun _ => mtch g (.lit T) (c :: (w ++ T)) k0) = some v
    obtain ⟨f2, rfl⟩ : ∃ a, f1 = a + 1 := ⟨f1 - 1, by omega⟩
    have hfirst : mtch (f2 + 1) .dot (c :: (w ++ T))
        (fun r => mtch (f2 + 1) (.starGreedy .dot) r
          (fun r => mtch g (.lit T) r k0)) = some v := by
      show (if c = '\n' then none
          else mtch (f2 + 1) (.starGreedy .dot) (w ++ T)
            (fun r => mtch g (.lit T) r k0)) = some v
      rw [if_neg hc]
      exact ih (f2 + 1) (fun d hd => hnl d (List.mem_cons_of_mem c hd))
        (by simp at hf ⊢; omega)
    rw [hfirst, orElse_eval_some]

theorem mtch_wsp_fail {a : Char} {X : List Char} {k : List Char → Option Cap}
    (h : isPySpace a = false) : ∀ f, mtch f .wsp (a :: X) k = none := by
  intro f
  cases f with
  | zero => rfl
  | succ f => simp [mtch, h]

theorem mtch_tail_seg {T : List Char} {k0 : List Char → Option Cap} {v : Cap}
    (hT : T ≠ []) (hTn : ∀ c ∈ T, c ≠ '\n') (hk0 : k0 [] = some v) :
    ∀ (u : List Char) (f : Nat), u ≠ [] → (∀ c ∈ u, c ≠ '\n') → u.length + 8 ≤ f →
      mtch f (.cat (.plusGreedy .dot) (.lit T)) (u ++ T) k0 = some v := by
  intro u f hu hnl hf
  obtain ⟨f1, rfl⟩ : ∃ a, f = a + 1 := ⟨f - 1, by omega⟩
  obtain ⟨f2, rfl⟩ : ∃ a, f1 = a + 1 := ⟨f1 - 1, by omega⟩
  obtain ⟨c, u', rfl⟩ : ∃ c u', u = c :: u' := by
    cases u with
    | nil => exact absurd rfl hu
    | cons c u' => exact ⟨c, u', rfl⟩
  obtain ⟨f3, rfl⟩ : ∃ a, f2 = a + 1 := ⟨f2 - 1, by omega⟩
  have hc : ¬ (c = '\n') := hnl c (by simp)
  show (if c = '\n' then none
      else mtch (f3 + 1) (.starGreedy .dot) (u' ++ T)
        (fun r => mtch (f3 + 1 + 1) (.lit T) r k0)) = some v
  rw [if_neg hc]
  exact starGreedy_find hT hTn (by omega) hk0 u' (f3 + 1)
    (fun d hd => hnl d (List.mem_cons_of_mem c hd)) (by simp at hf ⊢; omega)

theorem mtch_mid_seg {M T : List Char} {k0 : List Char → Option Cap} {v : Cap}
    (hT : T ≠ []) (hTn : ∀ c ∈ T, c ≠ '\n') (hk0 : k0 [] = some v) :
    ∀ (target : List Char) (f : Nat), target ≠ [] → (∀ c ∈ target, c ≠ '\n') →
      target.length + 10 ≤ f →
      mtch f (.cat (.lit M) (.cat (.plusGreedy .dot) (.lit T))) (M ++ target ++ T) k0
        = some v := by
  intro target f htarget hnl hf
  obtain ⟨f1, rfl⟩ : ∃ a, f = a + 1 := ⟨f - 1, by omega⟩
  show mtch f1 (.lit M) (M ++ target ++ T)
      (fun r => mtch f1 (.cat (.plusGreedy .dot) (.lit T)) r k0) = some v
  rw [List.append_assoc]
  rw [mtch_lit_ok f1 (by omega)]
  exact mtch_tail_seg hT hTn hk0 target f1 htarget hnl (by omega)

theorem ne_newline_of_not_ws {c : Char} (h : isPySpace c = false) : c ≠ '\n' := by
  intro hc
  subst hc
  simp [isPySpace] at h

theorem ne_space_of_not_ws {c : Char} (h : isPySpace c = false) : c ≠ ' ' := by
  intro hc
  subst hc
  simp [isPySpace] at h

theorem mtch_cat_eval {a b : RE} {s : List Char} {k : List Char → Option Cap} {f : Nat} :
    mtch (f + 1) (.cat a b) s k = mtch f a s (fun r => mtch f b r k) := rfl

theorem mtch_group_eval {a : RE} {s : List Char} {k : List Char → Option Cap} {f : Nat} :
    mtch (f + 1) (.group a) s k
      = mtch f a s (fun r => (k r).map (fun _ => some (s.take (s.length - r.length)))) := rfl

theorem mtch_plusLazy_eval {a : RE} {s : List Char} {k : List Char → Option Cap} {f : Nat} :
    mtch (f + 1) (.plusLazy a) s k = mtch f a s (fun r => mtch f (.starLazy a) r k) := rfl

theorem mtch_dot_cons {c : Char} {r : List Char} {k : List Char → Option Cap} {f : Nat}
    (h : ¬ (c = '\n')) : mtch (f + 1) .dot (c :: r) k = k r := by
  simp [mtch, h]

theorem mtch_actor_seg {M' T : List Char} {k0 : List Char → Option Cap} {v : Cap}
    (hT : T ≠ []) (hTn : ∀ c ∈ T, c ≠ '\n') (hk0 : k0 [] = some v) :
    ∀ (actor target : List Char) (f : Nat), actor ≠ [] →
      (∀ c ∈ actor, isPySpace c = false) → target ≠ [] → (∀ c ∈ target, c ≠ '\n') →
      actor.length + target.length + 16 ≤ f →
      mtch f (.cat (.group (.plusLazy .dot))
          (.cat (.lit (' ' :: M')) (.cat (.plusGreedy .dot) (.lit T))))
        (actor ++ ((' ' :: M') ++ (target ++ T))) k0
        = some (some actor) := by
  intro actor target f hactor hws htarget htn hf
  obtain ⟨f1, rfl⟩ : ∃ a, f = a + 1 := ⟨f - 1, by omega⟩
  obtain ⟨f2, rfl⟩ : ∃ a, f1 = a + 1 := ⟨f1 - 1, by omega⟩
  obtain ⟨f3, rfl⟩ : ∃ a, f2 = a + 1 := ⟨f2 - 1, by omega⟩
  obtain ⟨a, actor', rfl⟩ : ∃ a actor', actor = a :: actor' := by
    cases actor with
    | nil => exact absurd rfl hactor
    | cons a actor' => exact ⟨a, actor', rfl⟩
  obtain ⟨f4, rfl⟩ : ∃ b, f3 = b + 1 := ⟨f3 - 1, by omega⟩
  have ha : ¬ (a = '\n') := ne_newline_of_not_ws (hws a (by simp))
  rw [mtch_cat_eval, mtch_group_eval, mtch_plusLazy_eval, List.cons_append,
    mtch_dot_cons ha]
  refine starLazy_scan ?_ actor' (f4 + 1) ?_ ?_ ?_
  · rw [show ((' ' :: M') ++ (target ++ T)) = (((' ' :: M') ++ target) ++ T) from
      (List.append_assoc _ _ _).symm]
    refine Eq.trans (congrArg (Option.map _)
      (mtch_mid_seg hT hTn hk0 target _ htarget htn ?_)) ?_
    · simp at hf
      omega
    · simp only [Option.map_some']
      refine congrArg some (congrArg some ?_)
      have hlen : (a :: (actor' ++ (((' ' :: M') ++ target) ++ T))).length
          - ((((' ' :: M') ++ target) ++ T)).length = (a :: actor').length := by
        simp
        omega
      rw [hlen, ← List.cons_append, List.take_left]
  · intro i hi
    have hns : actor'[i] ≠ ' ' :=
      ne_space_of_not_ws (hws _ (List.mem_cons_of_mem a (List.getElem_mem hi)))
    rw [List.drop_eq_getElem_cons hi, List.cons_append]
    exact Eq.trans (congrArg (Option.map _) (cat_lit_head_fail hns _)) rfl
  · intro c hc
    exact ne_newline_of_not_ws (hws c (List.mem_cons_of_mem a hc))
  · simp at hf
    omega

theorem mtch_starGreedy_eval {a : RE} {s : List Char} {k : List Char → Option Cap} {f : Nat} :
    mtch (f + 1) (.starGreedy a) s k
      = (mtch f a s (fun r => mtch f (.starGreedy a) r k)).orElse (fun _ => k s) := rfl

theorem mtch_wsp_cons {c : Char} {r : List Char} {k : List Char → Option Cap} {f : Nat}
    (h : isPySpace c = true) : mtch (f + 1) .wsp (c :: r) k = k r := by
  simp [mtch, h]

theorem mtch_ws_actor {M' T : List Char} {k0 : List Char → Option Cap} {v : Cap}
    (hT : T ≠ []) (hTn : ∀ c ∈ T, c ≠ '\n') (hk0 : k0 [] = some v) :
    ∀ (actor target : List Char) (f : Nat), actor ≠ [] →
      (∀ c ∈ actor, isPySpace c = false) → target ≠ [] → (∀ c ∈ target, c ≠ '\n') →
      actor.length + target.length + 24 ≤ f →
      mtch f (.cat (.starGreedy .wsp)
          (.cat (.group (.plusLazy .dot))
            (.cat (.lit (' ' :: M')) (.cat (.plusGreedy .dot) (.lit T)))))
        (' ' :: (actor ++ ((' ' :: M') ++ (target ++ T)))) k0
        = some (some actor) := by
  intro actor target f hactor hws htarget htn hf
  obtain ⟨a, actor', rfl⟩ : ∃ a actor', actor = a :: actor' := by
    cases actor with
    | nil => exact absurd rfl hactor
    | cons a actor' => exact ⟨a, actor', rfl⟩
  obtain ⟨f1, rfl⟩ : ∃ b, f = b + 1 := ⟨f - 1, by omega⟩
  obtain ⟨f2, rfl⟩ : ∃ b, f1 = b + 1 := ⟨f1 - 1, by omega⟩
  obtain ⟨f3, rfl⟩ : ∃ b, f2 = b + 1 := ⟨f2 - 1, by omega⟩
  have hsp : isPySpace ' ' = true := rfl
  have hnsp : isPySpace a = false := hws a (by simp)
  have hmain : mtch (f3 + 1 + 1)
      (.cat (.group (.plusLazy .dot))
        (.cat (.lit (' ' :: M')) (.cat (.plusGreedy .dot) (.lit T))))
      (a :: (actor' ++ ((' ' :: M') ++ (target ++ T)))) k0 = some (some (a :: actor')) :=
    mtch_actor_seg hT hTn hk0 (a :: actor') target (f3 + 1 + 1) hactor hws htarget htn
      (by simp at hf ⊢; omega)
  rw [mtch_cat_eval, mtch_starGreedy_eval, mtch_wsp_cons hsp, mtch_starGreedy_eval,
    List.cons_append]
  rw [mtch_wsp_fail hnsp]
  simp only [orElse_eval_none, hmain, orElse_eval_some]

theorem mtch_lit1_cons {d : Char} {rest : List Char} {k : List Char → Option Cap} {f : Nat} :
    mtch (f + 1) (.lit [d]) (d :: rest) k = k rest := by
  simp [mtch, List.isPrefixOf]

theorem mtch_bash_full {M' T : List Char} {k0 : List Char → Option Cap} {v : Cap}
    (hT : T ≠ []) (hTn : ∀ c ∈ T, c ≠ '\n') (hk0 : k0 [] = some v) :
    ∀ (ts actor target : List Char) (f : Nat),
      (∀ c ∈ ts, c ≠ ']' ∧ c ≠ '\n') →
      actor ≠ [] → (∀ c ∈ actor, isPySpace c = false) →
      target ≠ [] → (∀ c ∈ target, c ≠ '\n') →
      ts.length + actor.length + target.length + 32 ≤ f →
      mtch f (.cat (.lit ['[']) (.cat (.starLazy .dot) (.cat (.lit [']'])
          (.cat (.starGreedy .wsp) (.cat (.group (.plusLazy .dot))
            (.cat (.lit (' ' :: M')) (.cat (.plusGreedy .dot) (.lit T))))))))
        ('[' :: (ts ++ (']' :: ' ' :: (actor ++ ((' ' :: M') ++ (target ++ T)))))) k0
        = some (some actor) := by
  intro ts actor target f hts hactor hws htarget htn hf
  obtain ⟨f1, rfl⟩ : ∃ b, f = b + 1 := ⟨f - 1, by omega⟩
  obtain ⟨f2, rfl⟩ : ∃ b, f1 = b + 1 := ⟨f1 - 1, by omega⟩
  obtain ⟨f3, rfl⟩ : ∃ b, f2 = b + 1 := ⟨f2 - 1, by omega⟩
  obtain ⟨f4, rfl⟩ : ∃ b, f3 = b + 1 := ⟨f3 - 1, by omega⟩
  rw [mtch_cat_eval]
  simp only [mtch_lit1_cons]
  rw [mtch_cat_eval]
  refine starLazy_scan ?_ ts (f4 + 1 + 1) ?_ ?_ ?_
  · rw [mtch_cat_eval]
    simp only [mtch_lit1_cons]
    exact mtch_ws_actor hT hTn hk0 actor target (f4 + 1) hactor hws htarget htn
      (by simp at hf ⊢; omega)
  · intro i hi
    rw [List.drop_eq_getElem_cons hi, List.cons_append]
    exact cat_lit_head_fail (hts _ (List.getElem_mem hi)).1 _
  · exact fun c hc => (hts c hc).2
  · simp at hf ⊢
    omega

theorem searchFrom_cons {re : RE} {fuel : Nat} {c : Char} {t : List Char} :
    searchFrom re fuel (c :: t)
      = (mtch fuel re (c :: t) (fun _ => some none)).orElse
          (fun _ => searchFrom re fuel t) := rfl

theorem mtch_bash_no_bracket {mid tl : String} {s : List Char}
    {k : List Char → Option Cap} (h : '[' ∉ s) : ∀ f, mtch f (bashRE mid tl) s k = none := by
  intro f
  cases f with
  | zero => rfl
  | succ f =>
    rw [bashRE, mtch_cat_eval]
    have hpre : (['['] : List Char).isPrefixOf s = false := by
      cases s with
      | nil => rfl
      | cons c t =>
        have hc : c ≠ '[' := fun hh => h (hh ▸ List.mem_cons_self c t)
        simp [List.isPrefixOf]
        exact fun hh => hc hh.symm
    exact mtch_lit_fail hpre f

theorem searchFrom_no_bracket {mid tl : String} :
    ∀ (s : List Char) (fuel : Nat), '[' ∉ s → searchFrom (bashRE mid tl) fuel s = none := by
  intro s
  induction s with
  | nil =>
    intro fuel _
    show mtch fuel (bashRE mid tl) [] (fun _ => some none) = none
    exact mtch_bash_no_bracket (by simp) fuel
  | cons c t ih =>
    intro fuel h
    rw [searchFrom_cons, mtch_bash_no_bracket h, orElse_eval_none]
    exact ih fuel (fun hm => h (List.mem_cons_of_mem c hm))

/-! ### Claim C8 -/

/-- C8 counterexample: a line carrying the first verb phrase but no leading
bracketed prefix does not match any of the four patterns (the bracketed
prefix is required by `\[.*?\]`, not optional), so the Event Matcher yields
no actor where the claim promises one. -/
theorem C8_counterexample :
    matchBash
        "Redbeard performs a powerful attack against Bluebeard and steals some loot in the process!"
      = none := by
  decide

set_option maxRecDepth 16000

/-- C8 amended: each of the four Event Matcher patterns recognizes a line
consisting of a required (not optional) leading bracketed prefix, whitespace,
an actor token captured lazily up to the fixed verb phrase and trimmed of
surrounding whitespace, the fixed verb phrase, a non-empty target and the
fixed trailing phrase; a line with no `[` at all never matches, whatever verb
phrase it carries. The trim of the lazily captured actor is illustrated on a
concrete line. -/
theorem C8_bracket_required (mid tl : String)
    (hmid : mid.toList.head? = some ' ')
    (htl : tl.toList ≠ []) (htln : ∀ c ∈ tl.toList, c ≠ '\n') :
    (∀ (ts actor target : List Char),
      (∀ c ∈ ts, c ≠ ']' ∧ c ≠ '\n') →
      actor ≠ [] → (∀ c ∈ actor, isPySpace c = false) →
      target ≠ [] → (∀ c ∈ target, c ≠ '\n') →
      reSearch (bashRE mid tl)
          ('[' :: (ts ++ (']' :: ' ' :: (actor ++ (mid.toList ++ (target ++ tl.toList))))))
        = some (some actor))
    ∧ (∀ s : List Char, '[' ∉ s → reSearch (bashRE mid tl) s = none)
    ∧ matchBash
        "[12:00]  Two Words   delivers an overwhelming barrage against X causing some treasure to fall from their grip!"
      = some "Two Words" := by
  obtain ⟨M', hM⟩ : ∃ M', mid.toList = ' ' :: M' := by
    cases hmv : mid.toList with
    | nil => rw [hmv] at hmid; cases hmid
    | cons c M' =>
      rw [hmv] at hmid
      simp at hmid
      exact ⟨M', by rw [hmid]⟩
  refine ⟨?_, ?_, by decide⟩
  · intro ts actor target hts hactor hws htarget htn
    rw [hM, reSearch, searchFrom_cons]
    rw [bashRE, hM]
    rw [mtch_bash_full (T := tl.toList) htl htln rfl ts actor target _ hts hactor hws
      htarget htn (by simp; omega)]
    exact orElse_eval_some
  · intro s hs
    exact searchFrom_no_bracket s _ hs

/-- Witness for C8: the first pattern applied to a concrete bracketed line
with actor `Redbeard` and target `Bluebeard`. -/
theorem C8_bracket_required_witness :
    reSearch
        (bashRE " performs a powerful attack against "
          " and steals some loot in the process!")
        ('[' :: ("12:00".toList ++ (']' :: ' ' :: ("Redbeard".toList
          ++ (" performs a powerful attack against ".toList
            ++ ("Bluebeard".toList ++ " and steals some loot in the process!".toList))))))
      = some (some "Redbeard".toList) :=
  (C8_bracket_required " performs a powerful attack against "
      " and steals some loot in the process!" (by decide) (by decide) (by decide)).1
    "12:00".toList "Redbeard".toList "Bluebeard".toList
    (by decide) (by decide) (by decide) (by decide) (by decide)

end BashAndDash
